import Mathlib

/-!
Verification of the SPAM (state preparation and measurement) calibration and
correction workflow demonstrated in `examples/spam_example.ipynb`, together
with the notebook-local helper functions `binseq`, `probs_from_counts` and
`JSD` defined in that notebook.

The notebook-local Python helpers are embedded directly from their source in
the notebook.  The `SpamCorrecter` class itself lives in `pytket.utils.spam`,
which is not part of the source tree here, so its operations are modelled
from the specification (each such definition carries a doc comment starting
with `Modelled from the spec:`).
-/

namespace SpamExample

/-! ### Notebook-local helper: binseq

Python source (notebook cell 17):
```
def binseq(k):
    return [''.join(x) for x in itertools.product('01', repeat=k)]
```
`itertools.product('01', repeat=k)` enumerates all length-`k` strings over
`{0,1}` with the first position varying slowest, i.e. in lexicographic order
with `'0' < '1'`.  Bits are modelled as `Bool` (`false` for `'0'`, `true`
for `'1'`), a binary string as a `List Bool`. -/
def binseq : Nat → List (List Bool)
  | 0 => [[]]
  | k + 1 => ((binseq k).map (fun r => false :: r)) ++ ((binseq k).map (fun r => true :: r))

/-! ### Cartesian product of lists (itertools.product) -/

/-- Cartesian product of a list of lists, in `itertools.product` order
(first factor varies slowest). -/
def listProd {α : Type} : List (List α) → List (List α)
  | [] => [[]]
  | l :: ls => l.flatMap (fun x => (listProd ls).map (fun r => x :: r))

/-! ### SpamCorrecter.calibration_circuits -/

/-- Modelled from the spec: `SpamCorrecter.calibration_circuits` is not in the
source tree (it lives in `pytket.utils.spam`); §4.1 of the spec describes it:
"for each subset of size k, produce all 2^k basis-state preparation circuits
(preparing each computational basis state on that subset, identity elsewhere)
followed by measurement of all qubits in the subset".  A calibration circuit
is determined by the basis state prepared on each subset, so the circuit list
is the Cartesian product, over the subsets, of the lists of basis states. -/
def calibration_circuits (subsets : List (List Nat)) : List (List (List Bool)) :=
  listProd (subsets.map (fun s => binseq s.length))

theorem binseq_length (k : Nat) : (binseq k).length = 2 ^ k := by
  induction k with
  | zero => rfl
  | succ k ih =>
    simp [binseq, List.length_append, List.length_map, ih, pow_succ]
    ring

theorem listProd_length {α : Type} (ls : List (List α)) :
    (listProd ls).length = (ls.map List.length).prod := by
  induction ls with
  | nil => rfl
  | cons l ls ih =>
    simp [listProd, List.length_flatMap, List.length_map, ih]
    induction l with
    | nil => simp
    | cons x l ihl => simp [ihl, Nat.succ_mul, ih]; omega

/-- C1: `calibration_circuits` returns exactly `∏ᵢ 2^(subsetsᵢ.length)`
circuits; in particular for the notebook's single 5-qubit subset it returns a
list of length 32. -/
theorem calibration_circuits_count :
    (∀ subsets : List (List Nat),
      (calibration_circuits subsets).length
        = (subsets.map (fun s => 2 ^ s.length)).prod) ∧
    (calibration_circuits [[0, 1, 2, 3, 4]]).length = 32 := by
  constructor
  · intro subsets
    simp only [calibration_circuits, listProd_length, List.map_map]
    congr 1
    ext s
    simp [Function.comp, binseq_length]
  · rfl

/-! ### The demonstrated workflow (notebook cell order)

The notebook's code cells call the SpamCorrecter operations in a fixed
sequence.  The trace below lists, in cell order, every occurrence of the
operations relevant to the claims: construction of the corrector,
calibration-circuit generation, circuit execution, matrix construction
(`calculate_matrices`) and count correction (`correct_counts`).  Events:
`initCorrecter` (cell 7), `calibrationCircuits` (cell 8), `processCircuits`
(cells 10 and 22), `calculateMatrices` (cells 11 and 23), `correctCounts`
(cells 15, 20 and twice in cell 25). -/
inductive SpamEvent
  | initCorrecter
  | calibrationCircuits
  | processCircuits
  | calculateMatrices
  | correctCounts
  deriving DecidableEq

/-- The sequence of SpamCorrecter operations executed by the notebook,
in cell order. -/
def notebookTrace : List SpamEvent :=
  [.initCorrecter, .calibrationCircuits, .processCircuits, .calculateMatrices,
   .correctCounts, .correctCounts, .processCircuits, .calculateMatrices,
   .correctCounts, .correctCounts]

/-- C7: in the demonstrated workflow every `correct_counts` call is preceded
by an earlier `calculate_matrices` call: `correct_counts` is never reached in
a state where `calculate_matrices` has not yet run. -/
theorem correctCounts_after_calculateMatrices :
    ∀ i, i < notebookTrace.length →
      notebookTrace.getD i .initCorrecter = .correctCounts →
      ∃ j, j < i ∧ notebookTrace.getD j .initCorrecter = .calculateMatrices := by
  decide

theorem correctCounts_after_calculateMatrices_witness :
    ∃ j, j < 4 ∧ notebookTrace.getD j .initCorrecter = .calculateMatrices :=
  correctCounts_after_calculateMatrices 4 (by decide) (by decide)

/-! ### Notebook-local helper: probs_from_counts

Python source (notebook cell 17):
```
def probs_from_counts(counts):
    counts_dict = dict()
    for x in counts:
        counts_dict[''.join(str(e) for e in x)]=counts[x]
    converted = []
    binary_strings = binseq(len(list(counts.keys())[0]))
    for b in binary_strings:
        converted.append(counts_dict.get(b,0))
    return converted / np.sum(converted)
```
A counts mapping is modelled as an association list from bit-tuples
(`List Bool`) to shot counts (`ℕ`) with distinct keys, in insertion order;
`list(counts.keys())[0]` is the first key.  On the empty mapping the Python
code raises `IndexError` at `list(counts.keys())[0]`; this is modelled by
returning `none`. -/
def probs_from_counts (counts : List (List Bool × ℕ)) : Option (List ℚ) :=
  match counts with
  | [] => none
  | (k₀, _) :: _ =>
    let converted : List ℕ := (binseq k₀.length).map (fun b => (counts.lookup b).getD 0)
    some (converted.map (fun v : ℕ => (v : ℚ) / (converted.sum : ℚ)))

/-- C10: `probs_from_counts` fails (raises) exactly on the empty mapping, so
under the precondition that the counts mapping is non-empty the error branch
is unreachable. -/
theorem probs_from_counts_empty_fails :
    probs_from_counts [] = none ∧
      ∀ counts : List (List Bool × ℕ), counts ≠ [] →
        (probs_from_counts counts).isSome = true := by
  refine ⟨rfl, fun counts h => ?_⟩
  match counts with
  | [] => exact absurd rfl h
  | (k₀, v₀) :: rest => rfl

theorem probs_from_counts_empty_fails_witness :
    (probs_from_counts [([false], 3)]).isSome = true :=
  probs_from_counts_empty_fails.2 [([false], 3)] (by decide)

theorem length_of_mem_binseq {n : Nat} {b : List Bool} (hb : b ∈ binseq n) :
    b.length = n := by
  induction n generalizing b with
  | zero => simp [binseq] at hb; simp [hb]
  | succ n ih =>
    simp only [binseq, List.mem_append, List.mem_map] at hb
    rcases hb with ⟨r, hr, rfl⟩ | ⟨r, hr, rfl⟩ <;> simp [ih hr]

theorem mem_binseq_of_length {n : Nat} {b : List Bool} (hb : b.length = n) :
    b ∈ binseq n := by
  induction n generalizing b with
  | zero => simp [binseq, List.length_eq_zero] at hb ⊢; exact hb
  | succ n ih =>
    match b with
    | [] => simp at hb
    | x :: b =>
      simp only [List.length_cons, Nat.succ_inj] at hb
      cases x
      · exact List.mem_append_left _ (List.mem_map_of_mem _ (ih hb))
      · exact List.mem_append_right _ (List.mem_map_of_mem _ (ih hb))

theorem binseq_nodup (n : Nat) : (binseq n).Nodup := by
  induction n with
  | zero => simp [binseq]
  | succ n ih =>
    simp only [binseq]
    refine List.Nodup.append (ih.map List.cons_injective) (ih.map List.cons_injective) ?_
    intro b hb hb'
    simp only [List.mem_map] at hb hb'
    rcases hb with ⟨r, _, rfl⟩
    rcases hb' with ⟨r', _, h⟩
    simp at h

theorem lookup_eq_none_of_not_mem_keys {counts : List (List Bool × ℕ)} {k : List Bool}
    (h : k ∉ counts.map Prod.fst) : counts.lookup k = none := by
  induction counts with
  | nil => rfl
  | cons p rest ih =>
    simp only [List.map_cons, List.mem_cons, not_or] at h
    have hk : (k == p.1) = false := beq_eq_false_iff_ne.mpr h.1
    simpa [List.lookup, hk] using ih h.2

theorem sum_map_ite_eq {α : Type} [DecidableEq α] (L : List α) (hL : L.Nodup)
    (k : α) (hk : k ∈ L) (v : ℕ) (g : α → ℕ) :
    (L.map (fun b => if b = k then v else g b)).sum + g k = v + (L.map g).sum := by
  induction L with
  | nil => exact absurd hk (List.not_mem_nil k)
  | cons a L ih =>
    simp only [List.nodup_cons] at hL
    rcases List.mem_cons.mp hk with rfl | hkL
    · have hcongr : L.map (fun b => if b = k then v else g b) = L.map g := by
        refine List.map_congr_left ?_
        intro b hb
        have hbk : b ≠ k := fun h => hL.1 (h ▸ hb)
        exact if_neg hbk
      simp [hcongr]
      omega
    · have hak : a ≠ k := fun h => hL.1 (h ▸ hkL)
      have := ih hL.2 hkL
      simp only [List.map_cons, List.sum_cons, if_neg hak]
      omega

/-- Summing the looked-up values over all length-`n` binary strings recovers
the total of the counts values, provided all keys have length `n` and are
distinct. -/
theorem sum_lookup_binseq (n : Nat) (counts : List (List Bool × ℕ))
    (hlen : ∀ p ∈ counts, (Prod.fst p).length = n)
    (hnodup : (counts.map Prod.fst).Nodup) :
    ((binseq n).map (fun b => (counts.lookup b).getD 0)).sum
      = (counts.map Prod.snd).sum := by
  induction counts with
  | nil => simp [List.lookup]
  | cons p rest ih =>
    obtain ⟨k, v⟩ := p
    simp only [List.map_cons, List.nodup_cons] at hnodup
    have hkmem : k ∈ binseq n :=
      mem_binseq_of_length (hlen (k, v) (List.mem_cons_self _ _))
    have hstep : ∀ b, (((k, v) :: rest).lookup b).getD 0
        = if b = k then v else (rest.lookup b).getD 0 := by
      intro b
      by_cases hb : b = k
      · subst hb; simp [List.lookup]
      · have : (b == k) = false := beq_eq_false_iff_ne.mpr hb
        simp [List.lookup, this, hb]
    have hrest : ((binseq n).map (fun b => (rest.lookup b).getD 0)).sum
        = (rest.map Prod.snd).sum :=
      ih (fun q hq => hlen q (List.mem_cons_of_mem _ hq)) hnodup.2
    have hknot : (rest.lookup k).getD 0 = 0 := by
      rw [lookup_eq_none_of_not_mem_keys hnodup.1]; rfl
    have hite := sum_map_ite_eq (binseq n) (binseq_nodup n) k hkmem v
      (fun b => (rest.lookup b).getD 0)
    simp only [hknot, add_zero, hrest] at hite
    rw [List.map_congr_left (fun b _ => hstep b)]
    simp only [List.map_cons, List.sum_cons]
    exact hite

theorem sum_map_cast_div (L : List ℕ) (c : ℚ) :
    (L.map (fun x : ℕ => (x : ℚ) / c)).sum = ((L.sum : ℕ) : ℚ) / c := by
  induction L with
  | nil => simp
  | cons x L ih =>
    simp only [List.map_cons, List.sum_cons, ih, Nat.cast_add]
    rw [add_div]

/-- C8: on a non-empty counts mapping whose keys are distinct bit-tuples of
common length `n` and whose values have a positive total, `probs_from_counts`
returns a vector of length `2^n` summing to `1` whose `i`-th entry is the
count of the `i`-th length-`n` binary string (in the lexicographic order
enumerated by `binseq`), divided by the total, with `0` for absent strings. -/
theorem probs_from_counts_spec (counts : List (List Bool × ℕ)) (n : Nat)
    (hne : counts ≠ [])
    (hlen : ∀ p ∈ counts, (Prod.fst p).length = n)
    (hnodup : (counts.map Prod.fst).Nodup)
    (hpos : 0 < (counts.map Prod.snd).sum) :
    ∃ v : List ℚ, probs_from_counts counts = some v ∧
      v.length = 2 ^ n ∧
      v.sum = 1 ∧
      ∀ i, i < 2 ^ n →
        v.getD i 0 = ((counts.lookup ((binseq n).getD i [])).getD 0 : ℕ)
          / ((counts.map Prod.snd).sum : ℚ) := by
  match counts, hne with
  | (k₀, v₀) :: rest, _ =>
    set cnts : List (List Bool × ℕ) := (k₀, v₀) :: rest with hcnts
    have hk₀ : k₀.length = n := hlen (k₀, v₀) (List.mem_cons_self _ _)
    set converted : List ℕ := (binseq n).map (fun b => (cnts.lookup b).getD 0) with hconv
    have hsum : converted.sum = (cnts.map Prod.snd).sum :=
      sum_lookup_binseq n cnts hlen hnodup
    have hout : probs_from_counts cnts
        = some (converted.map (fun v : ℕ => (v : ℚ) / (converted.sum : ℚ))) := by
      simp only [probs_from_counts, hk₀, hconv]
    refine ⟨_, hout, ?_, ?_, ?_⟩
    · simp [hconv, binseq_length]
    · rw [sum_map_cast_div, hsum]
      have hne0 : ((cnts.map Prod.snd).sum : ℚ) ≠ 0 := Nat.cast_ne_zero.mpr hpos.ne'
      exact div_self hne0
    · intro i hi
      have hconvlen : converted.length = 2 ^ n := by simp [hconv, binseq_length]
      have hilen : i < (converted.map (fun v : ℕ => (v : ℚ) / (converted.sum : ℚ))).length := by
        simpa [hconvlen] using hi
      have hib : i < (binseq n).length := by simpa [binseq_length] using hi
      have hic : i < converted.length := by simpa [hconvlen] using hi
      rw [List.getD_eq_getElem _ _ hilen, List.getElem_map]
      have hnum : converted[i] = (cnts.lookup ((binseq n).getD i [])).getD 0 := by
        rw [List.getD_eq_getElem _ _ hib]
        simp [hconv]
      rw [hnum, hsum]

theorem probs_from_counts_spec_witness :
    ∃ v : List ℚ, probs_from_counts [([false], 3), ([true], 1)] = some v ∧
      v.length = 2 ^ 1 ∧
      v.sum = 1 ∧
      ∀ i, i < 2 ^ 1 →
        v.getD i 0 = (([([false], 3), ([true], 1)].lookup ((binseq 1).getD i [])).getD 0 : ℕ)
          / ((([([false], 3), ([true], 1)] : List (List Bool × ℕ)).map Prod.snd).sum : ℚ) :=
  probs_from_counts_spec [([false], 3), ([true], 1)] 1
    (by decide) (by decide) (by decide) (by decide)

/-! ### Notebook-local helper: JSD

Python source (notebook cell 17):
```
def JSD(P, Q):
    _P = P / np.linalg.norm(P, ord=1)
    _Q = Q / np.linalg.norm(Q, ord=1)
    _M = 0.5 * (_P + _Q)
    return 0.5 * (entropy(_P, _M) + entropy(_Q, _M))
```
Vectors are modelled as `List ℝ`.  `np.linalg.norm (ord=1)` is the sum of
absolute values.  `scipy.stats.entropy(pk, qk)` first normalises each
argument by its sum, then sums `rel_entr(p_i, q_i) = p_i * log (p_i / q_i)`,
with the convention that a term with `p_i = 0` contributes `0`. -/
noncomputable def l1norm (P : List ℝ) : ℝ := (P.map (fun x => |x|)).sum

/-- Elementwise relative-entropy summand, `rel_entr` of scipy. -/
noncomputable def relEntrTerm (p q : ℝ) : ℝ :=
  if p = 0 then 0 else p * Real.log (p / q)

/-- `scipy.stats.entropy pk qk`: both arguments are normalised by their sums,
then the relative-entropy terms are summed. -/
noncomputable def scipyEntropy (P Q : List ℝ) : ℝ :=
  (((P.map (fun x => x / P.sum)).zip (Q.map (fun x => x / Q.sum))).map
    (fun x => relEntrTerm x.1 x.2)).sum

/-- The notebook-local `JSD` function. -/
noncomputable def JSD (P Q : List ℝ) : ℝ :=
  let nP := P.map (fun x => x / l1norm P)
  let nQ := Q.map (fun x => x / l1norm Q)
  let nM := List.zipWith (fun a b => 0.5 * (a + b)) nP nQ
  0.5 * (scipyEntropy nP nM + scipyEntropy nQ nM)

/-- C4: the notebook's `JSD` is symmetric in its two arguments. -/
theorem JSD_symm (P Q : List ℝ) (hlen : P.length = Q.length)
    (hP : 0 < l1norm P) (hQ : 0 < l1norm Q) : JSD P Q = JSD Q P := by
  have hM : List.zipWith (fun a b : ℝ => 0.5 * (a + b)) (P.map (fun x => x / l1norm P))
        (Q.map (fun x => x / l1norm Q))
      = List.zipWith (fun a b : ℝ => 0.5 * (a + b)) (Q.map (fun x => x / l1norm Q))
        (P.map (fun x => x / l1norm P)) := by
    rw [List.zipWith_comm (fun a b : ℝ => 0.5 * (a + b))]
    congr 1
    funext a b
    ring
  simp only [JSD, hM]
  ring

theorem JSD_symm_witness :
    ([(1 : ℝ), 0].length = [(0 : ℝ), 1].length ∧ 0 < l1norm [(1 : ℝ), 0]
      ∧ 0 < l1norm [(0 : ℝ), 1])
    ∧ JSD [(1 : ℝ), 0] [(0 : ℝ), 1] = JSD [(0 : ℝ), 1] [(1 : ℝ), 0] := by
  have h1 : (0 : ℝ) < l1norm [(1 : ℝ), 0] := by simp [l1norm]
  have h2 : (0 : ℝ) < l1norm [(0 : ℝ), 1] := by simp [l1norm]
  exact ⟨⟨rfl, h1, h2⟩, JSD_symm _ _ rfl h1 h2⟩

theorem l1norm_scale (P : List ℝ) (c : ℝ) (hc : 0 ≤ c) :
    l1norm (P.map (fun x => c * x)) = c * l1norm P := by
  simp only [l1norm, List.map_map]
  have habs : ((fun x : ℝ => |x|) ∘ fun x => c * x) = fun x : ℝ => c * |x| := by
    funext x
    simp [Function.comp, abs_mul, abs_of_nonneg hc]
  rw [habs]
  exact List.sum_map_mul_left P (fun x => |x|) c

theorem normalize_scale (P : List ℝ) (c : ℝ) (hc : 0 < c) :
    (P.map (fun x => c * x)).map (fun x => x / l1norm (P.map (fun x => c * x)))
      = P.map (fun x => x / l1norm P) := by
  rw [l1norm_scale P c hc.le, List.map_map]
  refine List.map_congr_left ?_
  intro x hx
  simp only [Function.comp]
  exact mul_div_mul_left x (l1norm P) hc.ne'

/-- C9: the notebook's `JSD` is invariant under positive rescaling of either
argument. -/
theorem JSD_scale_invariant (P Q : List ℝ) (c d : ℝ) (hc : 0 < c) (hd : 0 < d)
    (hP : 0 < l1norm P) (hQ : 0 < l1norm Q) :
    JSD (P.map (fun x => c * x)) (Q.map (fun x => d * x)) = JSD P Q := by
  simp only [JSD, normalize_scale P c hc, normalize_scale Q d hd]

theorem JSD_scale_invariant_witness :
    ((0 : ℝ) < 2 ∧ (0 : ℝ) < 3 ∧ 0 < l1norm [(1 : ℝ), 0] ∧ 0 < l1norm [(0 : ℝ), 1])
    ∧ JSD ([(1 : ℝ), 0].map (fun x => 2 * x)) ([(0 : ℝ), 1].map (fun x => 3 * x))
        = JSD [(1 : ℝ), 0] [(0 : ℝ), 1] := by
  have h1 : (0 : ℝ) < l1norm [(1 : ℝ), 0] := by simp [l1norm]
  have h2 : (0 : ℝ) < l1norm [(0 : ℝ), 1] := by simp [l1norm]
  exact ⟨⟨by norm_num, by norm_num, h1, h2⟩,
    JSD_scale_invariant _ _ 2 3 (by norm_num) (by norm_num) h1 h2⟩

theorem sum_map_div_real (P : List ℝ) (s : ℝ) :
    (P.map (fun x => x / s)).sum = P.sum / s := by
  induction P with
  | nil => simp
  | cons x P ih => simp [ih, add_div]

theorem sum_map_sub_real {α : Type} (L : List α) (f g : α → ℝ) :
    (L.map (fun x => f x - g x)).sum = (L.map f).sum - (L.map g).sum := by
  induction L with
  | nil => simp
  | cons x L ih => simp [ih]; ring

theorem sum_map_neg_real {α : Type} (L : List α) (f : α → ℝ) :
    (L.map (fun x => -f x)).sum = -(L.map f).sum := by
  induction L with
  | nil => simp
  | cons x L ih => simp [ih]; ring

theorem l1norm_of_nonneg (P : List ℝ) (h : ∀ x ∈ P, 0 ≤ x) : l1norm P = P.sum := by
  unfold l1norm
  rw [List.map_congr_left (fun x hx => abs_of_nonneg (h x hx))]
  simp

theorem sum_zipWith_avg (P Q : List ℝ) (h : P.length = Q.length) :
    (List.zipWith (fun a b => 0.5 * (a + b)) P Q).sum = 0.5 * (P.sum + Q.sum) := by
  induction P generalizing Q with
  | nil =>
    match Q, h with
    | [], _ => simp
  | cons x P ih =>
    match Q, h with
    | y :: Q, h =>
      simp only [List.length_cons, Nat.succ_inj] at h
      simp [ih Q h]
      ring

theorem mem_zip_zipWith_left {α β γ : Type} (f : α → β → γ) :
    ∀ (p : List α) (q : List β), ∀ x ∈ p.zip (List.zipWith f p q),
      ∃ a b, a ∈ p ∧ b ∈ q ∧ x = (a, f a b) := by
  intro p
  induction p with
  | nil => intro q x hx; simp at hx
  | cons a p ih =>
    intro q x hx
    match q with
    | [] => simp at hx
    | b :: q =>
      simp only [List.zipWith_cons_cons, List.zip_cons_cons, List.mem_cons] at hx
      rcases hx with rfl | hx
      · exact ⟨a, b, List.mem_cons_self _ _, List.mem_cons_self _ _, rfl⟩
      · obtain ⟨a', b', ha', hb', hx'⟩ := ih q x hx
        exact ⟨a', b', List.mem_cons_of_mem _ ha', List.mem_cons_of_mem _ hb', hx'⟩

theorem mem_zip_zipWith_right {α β γ : Type} (f : α → β → γ) :
    ∀ (p : List α) (q : List β), ∀ x ∈ q.zip (List.zipWith f p q),
      ∃ a b, a ∈ p ∧ b ∈ q ∧ x = (b, f a b) := by
  intro p
  induction p with
  | nil => intro q x hx; simp at hx
  | cons a p ih =>
    intro q x hx
    match q with
    | [] => simp at hx
    | b :: q =>
      simp only [List.zipWith_cons_cons, List.zip_cons_cons, List.mem_cons] at hx
      rcases hx with rfl | hx
      · exact ⟨a, b, List.mem_cons_self _ _, List.mem_cons_self _ _, rfl⟩
      · obtain ⟨a', b', ha', hb', hx'⟩ := ih q x hx
        exact ⟨a', b', List.mem_cons_of_mem _ ha', List.mem_cons_of_mem _ hb', hx'⟩

/-- When both arguments already sum to `1`, scipy's internal renormalisation
is the identity and `scipyEntropy` is the plain sum of relative-entropy
terms over the zipped lists. -/
theorem scipyEntropy_of_sum_one (P Q : List ℝ) (hP : P.sum = 1) (hQ : Q.sum = 1) :
    scipyEntropy P Q = ((P.zip Q).map (fun x => relEntrTerm x.1 x.2)).sum := by
  unfold scipyEntropy
  rw [hP, hQ]
  simp

/-- Gibbs' inequality for the summed relative-entropy terms: nonnegative when
both lists are nonnegative distributions and the second dominates the support
of the first. -/
theorem relEntrSum_nonneg (p m : List ℝ) (hlen : p.length = m.length)
    (hp : ∀ x ∈ p, 0 ≤ x) (hm : ∀ x ∈ m, 0 ≤ x)
    (habs : ∀ x ∈ p.zip m, x.2 = 0 → x.1 = 0)
    (hps : p.sum = 1) (hms : m.sum = 1) :
    0 ≤ ((p.zip m).map (fun x => relEntrTerm x.1 x.2)).sum := by
  have hpoint : ∀ x ∈ p.zip m, -relEntrTerm x.1 x.2 ≤ x.2 - x.1 := by
    intro x hx
    have hx1 : x.1 ∈ p := (List.of_mem_zip hx).1
    have hx2 : x.2 ∈ m := (List.of_mem_zip hx).2
    by_cases h1 : x.1 = 0
    · simp [relEntrTerm, h1]
      exact hm x.2 hx2
    · have h1pos : 0 < x.1 := lt_of_le_of_ne (hp x.1 hx1) (Ne.symm h1)
      have h2ne : x.2 ≠ 0 := fun h => h1 (habs x hx h)
      have h2pos : 0 < x.2 := lt_of_le_of_ne (hm x.2 hx2) (Ne.symm h2ne)
      have hlog : Real.log (x.2 / x.1) ≤ x.2 / x.1 - 1 :=
        Real.log_le_sub_one_of_pos (div_pos h2pos h1pos)
      have hrw : -relEntrTerm x.1 x.2 = x.1 * Real.log (x.2 / x.1) := by
        rw [relEntrTerm, if_neg h1, Real.log_div h1 h2pos.ne',
          Real.log_div h2pos.ne' h1]
        ring
      rw [hrw]
      calc x.1 * Real.log (x.2 / x.1) ≤ x.1 * (x.2 / x.1 - 1) := by
            exact mul_le_mul_of_nonneg_left hlog h1pos.le
        _ = x.2 - x.1 := by field_simp
  have hsum : ((p.zip m).map (fun x => -relEntrTerm x.1 x.2)).sum
      ≤ ((p.zip m).map (fun x => x.2 - x.1)).sum :=
    List.sum_le_sum hpoint
  rw [sum_map_neg_real, sum_map_sub_real] at hsum
  have hfst : (p.zip m).map Prod.fst = p :=
    List.map_fst_zip p m (le_of_eq hlen)
  have hsnd : (p.zip m).map Prod.snd = m :=
    List.map_snd_zip p m (le_of_eq hlen.symm)
  rw [hfst, hsnd, hps, hms] at hsum
  linarith

/-- Upper bound for the summed relative-entropy terms when the first list is
pointwise at most twice the second. -/
theorem relEntrSum_le_log_two (p m : List ℝ) (hlen : p.length = m.length)
    (hp : ∀ x ∈ p, 0 ≤ x)
    (hbound : ∀ x ∈ p.zip m, x.1 ≤ 2 * x.2)
    (hps : p.sum = 1) :
    ((p.zip m).map (fun x => relEntrTerm x.1 x.2)).sum ≤ Real.log 2 := by
  have hpoint : ∀ x ∈ p.zip m, relEntrTerm x.1 x.2 ≤ x.1 * Real.log 2 := by
    intro x hx
    have hx1 : x.1 ∈ p := (List.of_mem_zip hx).1
    by_cases h1 : x.1 = 0
    · simp [relEntrTerm, h1]
    · have h1pos : 0 < x.1 := lt_of_le_of_ne (hp x.1 hx1) (Ne.symm h1)
      have h2pos : 0 < x.2 := by
        have := hbound x hx
        nlinarith
      have hratio : x.1 / x.2 ≤ 2 := (div_le_iff₀ h2pos).mpr (hbound x hx)
      have hlog : Real.log (x.1 / x.2) ≤ Real.log 2 :=
        Real.log_le_log (div_pos h1pos h2pos) hratio
      rw [relEntrTerm, if_neg h1]
      exact mul_le_mul_of_nonneg_left hlog h1pos.le
  have hsum : ((p.zip m).map (fun x => relEntrTerm x.1 x.2)).sum
      ≤ ((p.zip m).map (fun x => x.1 * Real.log 2)).sum :=
    List.sum_le_sum hpoint
  have : ((p.zip m).map (fun x => x.1 * Real.log 2)).sum
      = ((p.zip m).map Prod.fst).sum * Real.log 2 := by
    rw [← List.sum_map_mul_right]
  rw [this, List.map_fst_zip p m (le_of_eq hlen), hps, one_mul] at hsum
  exact hsum

theorem mem_zipWith_decomp {α β γ : Type} (f : α → β → γ) :
    ∀ (p : List α) (q : List β), ∀ x ∈ List.zipWith f p q,
      ∃ a b, a ∈ p ∧ b ∈ q ∧ x = f a b := by
  intro p
  induction p with
  | nil => intro q x hx; simp at hx
  | cons a p ih =>
    intro q x hx
    match q with
    | [] => simp at hx
    | b :: q =>
      simp only [List.zipWith_cons_cons, List.mem_cons] at hx
      rcases hx with rfl | hx
      · exact ⟨a, b, List.mem_cons_self _ _, List.mem_cons_self _ _, rfl⟩
      · obtain ⟨a', b', ha', hb', hx'⟩ := ih q x hx
        exact ⟨a', b', List.mem_cons_of_mem _ ha', List.mem_cons_of_mem _ hb', hx'⟩

/-- Both halves of the Jensen-Shannon bound, for a pair of equal-length
nonnegative distributions and their pointwise average. -/
theorem jsd_core_bounds (p q : List ℝ) (hlen : p.length = q.length)
    (hpnn : ∀ x ∈ p, 0 ≤ x) (hqnn : ∀ x ∈ q, 0 ≤ x)
    (hpsum : p.sum = 1) (hqsum : q.sum = 1) :
    0 ≤ 0.5 * (scipyEntropy p (List.zipWith (fun a b => 0.5 * (a + b)) p q)
        + scipyEntropy q (List.zipWith (fun a b => 0.5 * (a + b)) p q))
    ∧ 0.5 * (scipyEntropy p (List.zipWith (fun a b => 0.5 * (a + b)) p q)
        + scipyEntropy q (List.zipWith (fun a b => 0.5 * (a + b)) p q))
      ≤ Real.log 2 := by
  have hmlen : (List.zipWith (fun a b : ℝ => 0.5 * (a + b)) p q).length = p.length := by
    simp [hlen]
  have hmnn : ∀ x ∈ List.zipWith (fun a b : ℝ => 0.5 * (a + b)) p q, 0 ≤ x := by
    intro x hx
    obtain ⟨a, b, ha, hb, rfl⟩ := mem_zipWith_decomp _ p q x hx
    have := hpnn a ha
    have := hqnn b hb
    linarith
  have hmsum : (List.zipWith (fun a b : ℝ => 0.5 * (a + b)) p q).sum = 1 := by
    rw [sum_zipWith_avg p q hlen, hpsum, hqsum]
    norm_num
  have hpz : ∀ x ∈ p.zip (List.zipWith (fun a b : ℝ => 0.5 * (a + b)) p q),
      (x.2 = 0 → x.1 = 0) ∧ x.1 ≤ 2 * x.2 := by
    intro x hx
    obtain ⟨a, b, ha, hb, rfl⟩ := mem_zip_zipWith_left _ p q x hx
    have := hpnn a ha
    have := hqnn b hb
    constructor
    · intro h0
      simp only at h0 ⊢
      linarith
    · simp only
      linarith
  have hqz : ∀ x ∈ q.zip (List.zipWith (fun a b : ℝ => 0.5 * (a + b)) p q),
      (x.2 = 0 → x.1 = 0) ∧ x.1 ≤ 2 * x.2 := by
    intro x hx
    obtain ⟨a, b, ha, hb, rfl⟩ := mem_zip_zipWith_right _ p q x hx
    have := hpnn a ha
    have := hqnn b hb
    constructor
    · intro h0
      simp only at h0 ⊢
      linarith
    · simp only
      linarith
  have hep : scipyEntropy p (List.zipWith (fun a b : ℝ => 0.5 * (a + b)) p q)
      = ((p.zip (List.zipWith (fun a b : ℝ => 0.5 * (a + b)) p q)).map
          (fun x => relEntrTerm x.1 x.2)).sum :=
    scipyEntropy_of_sum_one _ _ hpsum hmsum
  have heq : scipyEntropy q (List.zipWith (fun a b : ℝ => 0.5 * (a + b)) p q)
      = ((q.zip (List.zipWith (fun a b : ℝ => 0.5 * (a + b)) p q)).map
          (fun x => relEntrTerm x.1 x.2)).sum :=
    scipyEntropy_of_sum_one _ _ hqsum hmsum
  have h1lo := relEntrSum_nonneg p _ hmlen.symm hpnn hmnn
    (fun x hx => (hpz x hx).1) hpsum hmsum
  have h1hi := relEntrSum_le_log_two p _ hmlen.symm hpnn
    (fun x hx => (hpz x hx).2) hpsum
  have h2lo := relEntrSum_nonneg q _ (hmlen.trans hlen).symm hqnn hmnn
    (fun x hx => (hqz x hx).1) hqsum hmsum
  have h2hi := relEntrSum_le_log_two q _ (hmlen.trans hlen).symm hqnn
    (fun x hx => (hqz x hx).2) hqsum
  rw [hep, heq]
  constructor
  · linarith
  · linarith

/-- C5: the notebook's `JSD` is bounded: for equal-length nonnegative vectors
with positive L1 norm, `0 ≤ JSD P Q ≤ ln 2`. -/
theorem JSD_bounds (P Q : List ℝ) (hlen : P.length = Q.length)
    (hPnn : ∀ x ∈ P, 0 ≤ x) (hQnn : ∀ x ∈ Q, 0 ≤ x)
    (hP : 0 < l1norm P) (hQ : 0 < l1norm Q) :
    0 ≤ JSD P Q ∧ JSD P Q ≤ Real.log 2 := by
  have hpnn : ∀ x ∈ P.map (fun x => x / l1norm P), 0 ≤ x := by
    intro x hx
    obtain ⟨y, hy, rfl⟩ := List.mem_map.mp hx
    exact div_nonneg (hPnn y hy) hP.le
  have hqnn : ∀ x ∈ Q.map (fun x => x / l1norm Q), 0 ≤ x := by
    intro x hx
    obtain ⟨y, hy, rfl⟩ := List.mem_map.mp hx
    exact div_nonneg (hQnn y hy) hQ.le
  have hpsum : (P.map (fun x => x / l1norm P)).sum = 1 := by
    rw [sum_map_div_real]
    rw [l1norm_of_nonneg P hPnn] at hP ⊢
    exact div_self hP.ne'
  have hqsum : (Q.map (fun x => x / l1norm Q)).sum = 1 := by
    rw [sum_map_div_real]
    rw [l1norm_of_nonneg Q hQnn] at hQ ⊢
    exact div_self hQ.ne'
  have hlen' : (P.map (fun x => x / l1norm P)).length
      = (Q.map (fun x => x / l1norm Q)).length := by
    simp [hlen]
  have hcore := jsd_core_bounds (P.map (fun x => x / l1norm P))
    (Q.map (fun x => x / l1norm Q)) hlen' hpnn hqnn hpsum hqsum
  exact hcore

theorem JSD_bounds_witness :
    (([(1 : ℝ), 0].length = [(0 : ℝ), 1].length
        ∧ (∀ x ∈ [(1 : ℝ), 0], 0 ≤ x) ∧ (∀ x ∈ [(0 : ℝ), 1], 0 ≤ x)
        ∧ 0 < l1norm [(1 : ℝ), 0] ∧ 0 < l1norm [(0 : ℝ), 1]))
    ∧ 0 ≤ JSD [(1 : ℝ), 0] [(0 : ℝ), 1]
    ∧ JSD [(1 : ℝ), 0] [(0 : ℝ), 1] ≤ Real.log 2 := by
  have h1 : (0 : ℝ) < l1norm [(1 : ℝ), 0] := by simp [l1norm]
  have h2 : (0 : ℝ) < l1norm [(0 : ℝ), 1] := by simp [l1norm]
  have hPnn : ∀ x ∈ [(1 : ℝ), 0], 0 ≤ x := by
    intro x hx
    simp only [List.mem_cons, List.not_mem_nil, or_false] at hx
    rcases hx with rfl | rfl <;> norm_num
  have hQnn : ∀ x ∈ [(0 : ℝ), 1], 0 ≤ x := by
    intro x hx
    simp only [List.mem_cons, List.not_mem_nil, or_false] at hx
    rcases hx with rfl | rfl <;> norm_num
  have hmain := JSD_bounds [(1 : ℝ), 0] [(0 : ℝ), 1] rfl hPnn hQnn h1 h2
  exact ⟨⟨rfl, hPnn, hQnn, h1, h2⟩, hmain.1, hmain.2⟩

/-! ### SpamCorrecter.correct_counts — modelled from the spec

`SpamCorrecter.calculate_matrices` / `correct_counts` are not in the source
tree (they live in `pytket.utils.spam`).  Following §4.1 and §8 of the spec,
the correction works against a confusion matrix over the `N = 2^n` outcomes:
raw counts are normalised to a distribution, a method-specific estimate
`p_hat` of the true distribution is produced, and the estimate is scaled
back to counts. -/

/-- Modelled from the spec: a valid confusion/assignment matrix "maps
prepared ideal basis states to observed measurement outcome probabilities"
(glossary), so entries are nonnegative and each column — the observed
distribution for one prepared state — sums to 1. -/
def confusionValid {N : ℕ} (M : Matrix (Fin N) (Fin N) ℚ) : Prop :=
  (∀ i j, 0 ≤ M i j) ∧ ∀ j, ∑ i, M i j = 1

/-- Raw counts normalised to a distribution. -/
def normCounts {N : ℕ} (counts : Fin N → ℚ) : Fin N → ℚ :=
  fun i => counts i / ∑ k, counts k

/-- A corrected distribution scaled back to counts. -/
def rescaleCounts {N : ℕ} (counts : Fin N → ℚ) (p : Fin N → ℚ) : Fin N → ℚ :=
  fun i => (∑ k, counts k) * p i

/-- Squared residual of a candidate distribution against the observed one. -/
def lsqErr {N : ℕ} (M : Matrix (Fin N) (Fin N) ℚ) (c p : Fin N → ℚ) : ℚ :=
  ∑ j, (M.mulVec p j - c j) ^ 2

/-- Modelled from the spec: the "minimise" method is "a constrained-least-
squares-style" solver that "enforces a valid probability distribution"
(§4.1): its output is a least-squares solution constrained to the
probability simplex. -/
def MinimiseRel {N : ℕ} (M : Matrix (Fin N) (Fin N) ℚ) (c p : Fin N → ℚ) : Prop :=
  ((∀ i, 0 ≤ p i) ∧ ∑ i, p i = 1) ∧
    ∀ q : Fin N → ℚ, ((∀ i, 0 ≤ q i) ∧ ∑ i, q i = 1) → lsqErr M c p ≤ lsqErr M c q

/-- Modelled from the spec: the "invert" method solves directly against the
confusion matrix, with "no positivity constraint" (§4.1): its output is a
solution of `M p = c`. -/
def InvertRel {N : ℕ} (M : Matrix (Fin N) (Fin N) ℚ) (c p : Fin N → ℚ) : Prop :=
  M.mulVec p = c

/-- Modelled from the spec: one step of the "bayesian" method's "alternating
update converging to a maximum-likelihood-consistent correction" (§4.1), the
iterative Bayes unfolding update
`p'_i = p_i * ∑ⱼ M_{j,i} c_j / (M p)_j`. -/
def bayesStep {N : ℕ} (M : Matrix (Fin N) (Fin N) ℚ) (c : Fin N → ℚ)
    (p : Fin N → ℚ) : Fin N → ℚ :=
  fun i => p i * ∑ j, (M j i * c j / (∑ k, M j k * p k))

/-- The uniform distribution, the iteration's starting point. -/
def uniformDist (N : ℕ) : Fin N → ℚ := fun _ => 1 / N

/-- The bayesian estimate after `iters` update steps from the uniform
starting point. -/
def bayesianCorrect {N : ℕ} (M : Matrix (Fin N) (Fin N) ℚ) (c : Fin N → ℚ)
    (iters : ℕ) : Fin N → ℚ :=
  (bayesStep M c)^[iters] (uniformDist N)

/-- Modelled from the spec: the "bayesian" method runs at least one
iteration of the update. -/
def BayesianRel {N : ℕ} (M : Matrix (Fin N) (Fin N) ℚ) (c p : Fin N → ℚ) : Prop :=
  ∃ t, 0 < t ∧ p = bayesianCorrect M c t

/-- The three correction methods exposed by `correct_counts`. -/
def supportedMethods : List String := ["minimise", "invert", "bayesian"]

/-- Modelled from the spec: dispatch of `correct_counts`'s `method` string to
the three strategies of §4.1; any other string is rejected. -/
def MethodRel {N : ℕ} (M : Matrix (Fin N) (Fin N) ℚ) (c : Fin N → ℚ)
    (method : String) (p : Fin N → ℚ) : Prop :=
  if method = "minimise" then MinimiseRel M c p
  else if method = "invert" then InvertRel M c p
  else if method = "bayesian" then BayesianRel M c p
  else False

/-- Modelled from the spec: `SpamCorrecter.correct_counts` — normalise the
raw counts, produce a method-specific estimate of the true distribution, and
scale it back to counts. -/
def CorrectCounts {N : ℕ} (M : Matrix (Fin N) (Fin N) ℚ) (counts : Fin N → ℚ)
    (method : String) (out : Fin N → ℚ) : Prop :=
  ∃ p, MethodRel M (normCounts counts) method p ∧ out = rescaleCounts counts p

/-- Modelled from the spec: calling `correct_counts` without a `method`
argument uses the default method, "minimise". -/
def CorrectCountsDefault {N : ℕ} (M : Matrix (Fin N) (Fin N) ℚ)
    (counts : Fin N → ℚ) (out : Fin N → ℚ) : Prop :=
  CorrectCounts M counts "minimise" out

/-- C6: `correct_counts` exposes exactly the three methods `"minimise"`,
`"invert"` and `"bayesian"`, and with no method argument it uses
`"minimise"`. -/
theorem correct_counts_methods {N : ℕ} (M : Matrix (Fin N) (Fin N) ℚ)
    (counts : Fin N → ℚ) :
    supportedMethods = ["minimise", "invert", "bayesian"] ∧
    (∀ method out, CorrectCounts M counts method out → method ∈ supportedMethods) ∧
    (∀ out, CorrectCountsDefault M counts out ↔ CorrectCounts M counts "minimise" out) := by
  refine ⟨rfl, ?_, fun out => Iff.rfl⟩
  rintro method out ⟨p, hrel, -⟩
  unfold MethodRel at hrel
  split_ifs at hrel with h1 h2 h3
  · simp [supportedMethods, h1]
  · simp [supportedMethods, h2]
  · simp [supportedMethods, h3]

theorem correct_counts_methods_witness : "invert" ∈ supportedMethods := by
  have hinv : CorrectCounts (1 : Matrix (Fin 1) (Fin 1) ℚ) (fun _ => 1) "invert"
      (rescaleCounts (fun _ => 1) (normCounts (fun _ => 1))) := by
    refine ⟨normCounts (fun _ => 1), ?_, rfl⟩
    unfold MethodRel
    rw [if_neg (by decide), if_pos rfl]
    exact Matrix.one_mulVec _
  exact (correct_counts_methods (1 : Matrix (Fin 1) (Fin 1) ℚ) (fun _ => 1)).2.1
    "invert" _ hinv

theorem uniformDist_sum (N : ℕ) (hN : 0 < N) : ∑ i, uniformDist N i = 1 := by
  simp only [uniformDist, Finset.sum_const, Finset.card_univ, Fintype.card_fin,
    nsmul_eq_mul, mul_one_div]
  exact div_self (Nat.cast_ne_zero.mpr hN.ne')

theorem bayesStep_nonneg {N : ℕ} (M : Matrix (Fin N) (Fin N) ℚ)
    (hM1 : ∀ i j, 0 ≤ M i j) (c : Fin N → ℚ) (hcnn : ∀ j, 0 ≤ c j)
    (p : Fin N → ℚ) (hpnn : ∀ i, 0 ≤ p i) :
    ∀ i, 0 ≤ bayesStep M c p i := by
  intro i
  refine mul_nonneg (hpnn i) (Finset.sum_nonneg fun j _ => ?_)
  exact div_nonneg (mul_nonneg (hM1 j i) (hcnn j))
    (Finset.sum_nonneg fun k _ => mul_nonneg (hM1 j k) (hpnn k))

theorem bayesStep_support {N : ℕ} (M : Matrix (Fin N) (Fin N) ℚ)
    (hM1 : ∀ i j, 0 ≤ M i j) (c : Fin N → ℚ) (hcnn : ∀ j, 0 ≤ c j)
    (p : Fin N → ℚ) (hpnn : ∀ i, 0 ≤ p i)
    (hsupp : ∀ k, (∃ j, 0 < M j k ∧ 0 < c j) → 0 < p k) :
    ∀ k, (∃ j, 0 < M j k ∧ 0 < c j) → 0 < bayesStep M c p k := by
  rintro k ⟨j, hMjk, hcj⟩
  have hpk : 0 < p k := hsupp k ⟨j, hMjk, hcj⟩
  have hD : 0 < ∑ d, M j d * p d :=
    Finset.sum_pos' (fun d _ => mul_nonneg (hM1 j d) (hpnn d))
      ⟨k, Finset.mem_univ k, mul_pos hMjk hpk⟩
  refine mul_pos hpk (Finset.sum_pos' (fun i _ => ?_) ⟨j, Finset.mem_univ j, ?_⟩)
  · exact div_nonneg (mul_nonneg (hM1 i k) (hcnn i))
      (Finset.sum_nonneg fun d _ => mul_nonneg (hM1 i d) (hpnn d))
  · exact div_pos (mul_pos hMjk hcj) hD

theorem bayes_denom_pos {N : ℕ} (M : Matrix (Fin N) (Fin N) ℚ)
    (hM1 : ∀ i j, 0 ≤ M i j) (c : Fin N → ℚ)
    (p : Fin N → ℚ) (hpnn : ∀ i, 0 ≤ p i)
    (hsupp : ∀ k, (∃ j, 0 < M j k ∧ 0 < c j) → 0 < p k)
    (hprodc : ∀ j, 0 < c j → ∃ k, 0 < M j k) :
    ∀ j, 0 < c j → 0 < ∑ k, M j k * p k := by
  intro j hcj
  obtain ⟨k, hk⟩ := hprodc j hcj
  have hpk : 0 < p k := hsupp k ⟨j, hk, hcj⟩
  exact Finset.sum_pos' (fun d _ => mul_nonneg (hM1 j d) (hpnn d))
    ⟨k, Finset.mem_univ k, mul_pos hk hpk⟩

/-- Mass preservation of the bayesian update: one step maps any nonnegative
vector onto a vector whose total is the total of the observed distribution,
provided the denominator of every outcome actually observed is positive. -/
theorem bayesStep_sum {N : ℕ} (M : Matrix (Fin N) (Fin N) ℚ) (c : Fin N → ℚ)
    (hcnn : ∀ j, 0 ≤ c j) (hc1 : ∑ j, c j = 1) (p : Fin N → ℚ)
    (hpos : ∀ j, 0 < c j → 0 < ∑ k, M j k * p k) :
    ∑ i, bayesStep M c p i = 1 := by
  unfold bayesStep
  have h1 : ∀ i, (p i * ∑ j, (M j i * c j / (∑ k, M j k * p k)))
      = ∑ j, (M j i * p i) * (c j / (∑ k, M j k * p k)) := by
    intro i
    rw [Finset.mul_sum]
    refine Finset.sum_congr rfl (fun j _ => ?_)
    rw [mul_div_assoc]
    ring
  rw [Finset.sum_congr rfl (fun i _ => h1 i), Finset.sum_comm]
  have h2 : ∀ j, (∑ i, (M j i * p i) * (c j / (∑ k, M j k * p k))) = c j := by
    intro j
    rw [← Finset.sum_mul]
    by_cases hD : (∑ k, M j k * p k) = 0
    · have hc0 : c j = 0 := by
        by_contra h
        have hcj : 0 < c j := lt_of_le_of_ne (hcnn j) (Ne.symm h)
        have := hpos j hcj
        rw [hD] at this
        exact lt_irrefl 0 this
      rw [hc0]
      simp
    · rw [mul_comm, div_mul_cancel₀ _ hD]
  rw [Finset.sum_congr rfl (fun j _ => h2 j), hc1]

/-- The inductive invariant of the bayesian iteration: every iterate is a
nonnegative vector of total mass 1 that remains positive on every bin some
observed outcome can be produced from. -/
theorem bayes_invariant {N : ℕ} (hN : 0 < N) (M : Matrix (Fin N) (Fin N) ℚ)
    (hM : confusionValid M) (c : Fin N → ℚ) (hcnn : ∀ j, 0 ≤ c j)
    (hc1 : ∑ j, c j = 1) (hprodc : ∀ j, 0 < c j → ∃ k, 0 < M j k) :
    ∀ t, (∀ i, 0 ≤ bayesianCorrect M c t i)
      ∧ (∑ i, bayesianCorrect M c t i = 1)
      ∧ (∀ k, (∃ j, 0 < M j k ∧ 0 < c j) → 0 < bayesianCorrect M c t k) := by
  intro t
  induction t with
  | zero =>
    have hNpos : (0 : ℚ) < (N : ℚ) := Nat.cast_pos.mpr hN
    refine ⟨fun i => ?_, uniformDist_sum N hN, fun k _ => ?_⟩
    · exact le_of_lt (div_pos one_pos hNpos)
    · exact div_pos one_pos hNpos
  | succ t ih =>
    obtain ⟨hnn, hsum, hsupp⟩ := ih
    have hstep : bayesianCorrect M c (t + 1) = bayesStep M c (bayesianCorrect M c t) := by
      unfold bayesianCorrect
      rw [Function.iterate_succ_apply']
    rw [hstep]
    refine ⟨bayesStep_nonneg M hM.1 c hcnn _ hnn, ?_,
      bayesStep_support M hM.1 c hcnn _ hnn hsupp⟩
    exact bayesStep_sum M c hcnn hc1 _
      (bayes_denom_pos M hM.1 c _ hnn hsupp hprodc)

/-- C2: for every valid confusion matrix and raw counts (with each observed
outcome producible under the matrix), the corrected distribution sums to 1
for the "minimise" method (any constrained solution) and for the "bayesian"
method (any number of iterations). -/
theorem corrected_distribution_sums_to_one {N : ℕ} (hN : 0 < N)
    (M : Matrix (Fin N) (Fin N) ℚ) (hM : confusionValid M)
    (counts : Fin N → ℚ) (hc : ∀ i, 0 ≤ counts i) (hT : 0 < ∑ i, counts i)
    (hprod : ∀ j, 0 < counts j → ∃ k, 0 < M j k) :
    (∀ p, MinimiseRel M (normCounts counts) p → ∑ i, p i = 1) ∧
    (∀ t, ∑ i, bayesianCorrect M (normCounts counts) t i = 1) := by
  have hcnn : ∀ j, 0 ≤ normCounts counts j := fun j => div_nonneg (hc j) hT.le
  have hc1 : ∑ j, normCounts counts j = 1 := by
    unfold normCounts
    rw [← Finset.sum_div, div_self hT.ne']
  have hprodc : ∀ j, 0 < normCounts counts j → ∃ k, 0 < M j k := by
    intro j hj
    refine hprod j ?_
    by_contra hcj
    push_neg at hcj
    have h0 : counts j = 0 := le_antisymm hcj (hc j)
    unfold normCounts at hj
    rw [h0, zero_div] at hj
    exact lt_irrefl 0 hj
  exact ⟨fun p hp => hp.1.2,
    fun t => (bayes_invariant hN M hM _ hcnn hc1 hprodc t).2.1⟩

theorem corrected_distribution_sums_to_one_witness :
    ∑ i, bayesianCorrect (1 : Matrix (Fin 1) (Fin 1) ℚ)
      (normCounts (fun _ => 4)) 0 i = 1 := by
  have hM : confusionValid (1 : Matrix (Fin 1) (Fin 1) ℚ) := by
    constructor
    · intro i j
      fin_cases i <;> fin_cases j <;> simp [Matrix.one_apply]
    · intro j
      fin_cases j <;> simp [Matrix.one_apply]
  have hT : (0 : ℚ) < ∑ _i : Fin 1, (4 : ℚ) := by simp
  refine (corrected_distribution_sums_to_one Nat.one_pos 1 hM (fun _ => 4)
    (fun i => by norm_num) hT ?_).2 0
  intro j hj
  refine ⟨j, ?_⟩
  fin_cases j
  simp [Matrix.one_apply]

theorem MethodRel_minimise {N : ℕ} (M : Matrix (Fin N) (Fin N) ℚ) (c p : Fin N → ℚ) :
    MethodRel M c "minimise" p ↔ MinimiseRel M c p := by
  unfold MethodRel
  rw [if_pos rfl]

theorem MethodRel_invert {N : ℕ} (M : Matrix (Fin N) (Fin N) ℚ) (c p : Fin N → ℚ) :
    MethodRel M c "invert" p ↔ InvertRel M c p := by
  unfold MethodRel
  rw [if_neg (by decide), if_pos rfl]

theorem MethodRel_bayesian {N : ℕ} (M : Matrix (Fin N) (Fin N) ℚ) (c p : Fin N → ℚ) :
    MethodRel M c "bayesian" p ↔ BayesianRel M c p := by
  unfold MethodRel
  rw [if_neg (by decide), if_neg (by decide), if_pos rfl]

theorem bayesStep_one {N : ℕ} (c p : Fin N → ℚ) :
    bayesStep (1 : Matrix (Fin N) (Fin N) ℚ) c p = fun i => p i * (c i / p i) := by
  funext i
  unfold bayesStep
  congr 1
  have hden : ∀ j, (∑ k, (1 : Matrix (Fin N) (Fin N) ℚ) j k * p k) = p j := by
    intro j
    rw [Finset.sum_eq_single j]
    · rw [Matrix.one_apply_eq, one_mul]
    · intro b _ hb
      rw [Matrix.one_apply_ne (Ne.symm hb), zero_mul]
    · intro h
      exact absurd (Finset.mem_univ j) h
  rw [Finset.sum_eq_single i]
  · rw [hden i, Matrix.one_apply_eq, one_mul]
  · intro j _ hj
    rw [Matrix.one_apply_ne hj, zero_mul, zero_div]
  · intro h
    exact absurd (Finset.mem_univ i) h

theorem bayesStep_one_fixed {N : ℕ} (c : Fin N → ℚ) :
    bayesStep (1 : Matrix (Fin N) (Fin N) ℚ) c c = c := by
  funext i
  simp only [bayesStep_one]
  by_cases h : c i = 0
  · simp [h]
  · rw [div_self h, mul_one]

theorem bayesianCorrect_one {N : ℕ} (hN : 0 < N) (c : Fin N → ℚ) :
    ∀ t, 0 < t → bayesianCorrect (1 : Matrix (Fin N) (Fin N) ℚ) c t = c := by
  intro t ht
  induction t with
  | zero => exact absurd ht (lt_irrefl 0)
  | succ t ih =>
    have hstep : bayesianCorrect (1 : Matrix (Fin N) (Fin N) ℚ) c (t + 1)
        = bayesStep 1 c (bayesianCorrect 1 c t) := by
      unfold bayesianCorrect
      rw [Function.iterate_succ_apply']
    rcases Nat.eq_zero_or_pos t with rfl | ht'
    · rw [hstep]
      show bayesStep 1 c (uniformDist N) = c
      funext i
      simp only [bayesStep_one]
      have hu : uniformDist N i ≠ 0 :=
        div_ne_zero one_ne_zero (Nat.cast_ne_zero.mpr hN.ne')
      rw [mul_comm, div_mul_cancel₀ _ hu]
    · rw [hstep, ih ht', bayesStep_one_fixed]

/-- C3: in the noiseless limit, where the confusion matrix is the identity,
`correct_counts` returns the raw counts exactly, for each of the three
methods. -/
theorem identity_confusion_corrects_exactly {N : ℕ} (hN : 0 < N)
    (counts : Fin N → ℚ) (hc : ∀ i, 0 ≤ counts i) (hT : 0 < ∑ i, counts i) :
    (∀ out, CorrectCounts (1 : Matrix (Fin N) (Fin N) ℚ) counts "minimise" out
      → out = counts) ∧
    (∀ out, CorrectCounts (1 : Matrix (Fin N) (Fin N) ℚ) counts "invert" out
      → out = counts) ∧
    (∀ out, CorrectCounts (1 : Matrix (Fin N) (Fin N) ℚ) counts "bayesian" out
      → out = counts) := by
  have hrescale : rescaleCounts counts (normCounts counts) = counts := by
    funext i
    unfold rescaleCounts normCounts
    rw [mul_comm, div_mul_cancel₀ _ hT.ne']
  have hcnn : ∀ j, 0 ≤ normCounts counts j := fun j => div_nonneg (hc j) hT.le
  have hc1 : ∑ j, normCounts counts j = 1 := by
    unfold normCounts
    rw [← Finset.sum_div, div_self hT.ne']
  have hlsq : ∀ q : Fin N → ℚ,
      lsqErr (1 : Matrix (Fin N) (Fin N) ℚ) (normCounts counts) q
        = ∑ j, (q j - normCounts counts j) ^ 2 := by
    intro q
    unfold lsqErr
    rw [Matrix.one_mulVec]
  refine ⟨?_, ?_, ?_⟩
  · rintro out ⟨p, hrel, rfl⟩
    rw [MethodRel_minimise] at hrel
    have hle := hrel.2 (normCounts counts) ⟨hcnn, hc1⟩
    rw [hlsq, hlsq] at hle
    have hzero : (∑ j, (p j - normCounts counts j) ^ 2) = 0 := by
      have hub : (∑ j, (normCounts counts j - normCounts counts j) ^ 2) = 0 := by
        simp
      have hlb : 0 ≤ ∑ j, (p j - normCounts counts j) ^ 2 :=
        Finset.sum_nonneg fun j _ => sq_nonneg _
      rw [hub] at hle
      exact le_antisymm hle hlb
    have hpc : p = normCounts counts := by
      funext j
      have := (Finset.sum_eq_zero_iff_of_nonneg
        (fun j _ => sq_nonneg (p j - normCounts counts j))).mp hzero j
        (Finset.mem_univ j)
      have hsub : p j - normCounts counts j = 0 := by
        exact pow_eq_zero_iff (two_ne_zero) |>.mp this
      linarith
    rw [hpc, hrescale]
  · rintro out ⟨p, hrel, rfl⟩
    rw [MethodRel_invert] at hrel
    unfold InvertRel at hrel
    rw [Matrix.one_mulVec] at hrel
    rw [hrel, hrescale]
  · rintro out ⟨p, hrel, rfl⟩
    rw [MethodRel_bayesian] at hrel
    obtain ⟨t, ht, rfl⟩ := hrel
    rw [bayesianCorrect_one hN _ t ht, hrescale]

theorem identity_confusion_corrects_exactly_witness :
    rescaleCounts (fun _ : Fin 1 => (4 : ℚ)) (normCounts (fun _ => 4))
      = (fun _ : Fin 1 => (4 : ℚ)) := by
  have hT : (0 : ℚ) < ∑ _i : Fin 1, (4 : ℚ) := by simp
  refine (identity_confusion_corrects_exactly Nat.one_pos (fun _ => 4)
    (fun i => by norm_num) hT).2.1 _ ?_
  refine ⟨normCounts (fun _ => 4), ?_, rfl⟩
  rw [MethodRel_invert]
  exact Matrix.one_mulVec _

end SpamExample
